import Mathlib

/-!
Verification of the Anemoi sponge hasher and Jive compressor of the
`anemoi-rust` repository (instance `ed_on_bls12_377::anemoi_12_11`,
file `src/ed_on_bls12_377/anemoi_12_11/hasher.rs`) together with the
`mul_by_generator` helper of `src/bls12_377/mod.rs`.

The sponge/Jive driver code treats the Anemoi permutation
(`apply_permutation`, defined in a sibling module of the repository)
as a black box, so the embedding abstracts it as an arbitrary function
`P : State → State`; every theorem below is proved for all `P`, which
subsumes the concrete permutation.

Field elements are embedded as `ZMod p` for the concrete prime modulus
of each field, with the external field library's serialization and
deserialization modelled from the spec (little-endian byte encoding of
the element's integer value).
-/

namespace Anemoi

/-- Modelled from the spec: the state width `t` of the `anemoi_12_11`
instance (the `STATE_WIDTH` constant of the instance module, which is
not part of the extracted sources). -/
def STATE_WIDTH : Nat := 12

/-- Modelled from the spec: the rate `r` of the `anemoi_12_11` instance. -/
def RATE_WIDTH : Nat := 11

/-- Modelled from the spec: the number of column pairs `t / 2`. -/
def NUM_COLUMNS : Nat := 6

/-- Modelled from the spec: the digest size `d`; all instances have `d = 1`. -/
def DIGEST_SIZE : Nat := 1

/-- Modelled from the spec: the prime modulus of `Felt`, the base field of
Ed-on-BLS12-377 (equal to the scalar field of BLS12-377); the field
arithmetic itself lives in the external `ark-ff` library.  The modulus is
slightly below `2 ^ 253`. -/
def pEd : Nat := 8444461749428370424248824938781546531375899335154063827935233455917409239041

/-- The field `Felt` of the `ed_on_bls12_377` instances. -/
abbrev Fp : Type := ZMod pEd

instance : NeZero pEd := ⟨by decide⟩

/-- A sponge state: a list of `STATE_WIDTH` field elements. -/
abbrev State : Type := List Fp

/-- A byte, as carried by the `hash` byte-mode input. -/
abbrev Byte : Type := Fin 256

/-- Embedding of the Rust statement `state[i] += x`. -/
def addAt (s : State) (i : Nat) (x : Fp) : State :=
  s.set i (s.getD i 0 + x)

/-- The absorption loop of `hash_field` (hasher.rs lines 109-117): add each
element into `state[i]`, increment `i`, and whenever `i % RATE_WIDTH == 0`
apply the permutation and reset `i` to `0`. -/
def fieldAbsorb (P : State → State) : State → Nat → List Fp → State × Nat
  | state, i, [] => (state, i)
  | state, i, e :: rest =>
    let state' := addAt state i e
    if (i + 1) % RATE_WIDTH = 0 then fieldAbsorb P (P state') 0 rest
    else fieldAbsorb P state' (i + 1) rest

/-- Embedding of `AnemoiHash::hash_field` (hasher.rs lines 99-135),
parameterized by the permutation `P`. -/
def hash_field (P : State → State) (elems : List Fp) : List Fp :=
  let sigma : Fp := if elems.length % RATE_WIDTH = 0 then 1 else 0
  let r := fieldAbsorb P (List.replicate STATE_WIDTH 0) 0 elems
  let state := addAt r.1 (STATE_WIDTH - 1) sigma
  if sigma = 0 then (P (addAt state r.2 1)).take DIGEST_SIZE
  else state.take DIGEST_SIZE

/-- Modelled from the spec (4.6.1, step 2): the absorption loop as the spec
words it, resetting when the insertion index reaches the rate. -/
def fieldAbsorbSpec (P : State → State) : State → Nat → List Fp → State × Nat
  | state, i, [] => (state, i)
  | state, i, e :: rest =>
    let state' := addAt state i e
    if i + 1 = RATE_WIDTH then fieldAbsorbSpec P (P state') 0 rest
    else fieldAbsorbSpec P state' (i + 1) rest

/-- Modelled from the spec (4.6.1): the `hash_field` algorithm exactly as the
spec states it, to be compared with the embedding of the source. -/
def hash_field_spec (P : State → State) (elems : List Fp) : List Fp :=
  let sigma : Fp := if elems.length % RATE_WIDTH = 0 then 1 else 0
  let r := fieldAbsorbSpec P (List.replicate STATE_WIDTH 0) 0 elems
  let state := addAt r.1 (STATE_WIDTH - 1) sigma
  if sigma = 0 then (P (addAt state r.2 1)).take DIGEST_SIZE
  else state.take DIGEST_SIZE

/-- Little-endian value of a byte string: `l` encodes `leBytes l`. -/
def leBytes (l : List Byte) : Nat :=
  l.foldr (fun b acc => b.val + 256 * acc) 0

/-- Modelled from the spec (4.1): `Felt::read` of the external field library
deserializes a little-endian byte string, succeeding exactly when the encoded
integer is below the modulus. -/
def feltRead (l : List Byte) : Option Fp :=
  if leBytes l < pEd then some ((leBytes l : Nat) : Fp) else none

/-- Embedding of the `num_elements` computation of `hash`
(hasher.rs lines 28-32). -/
def numElementsOf (bytes : List Byte) : Nat :=
  if bytes.length % 31 = 0 then bytes.length / 31 else bytes.length / 31 + 1

/-- Embedding of `bytes.chunks(31)`: the list of successive 31-byte chunks,
the last one possibly shorter. -/
def chunks31 (l : List Byte) : List (List Byte) :=
  if l = [] then [] else l.take 31 :: chunks31 (l.drop 31)
termination_by l.length
decreasing_by
  simp only [List.length_drop]
  cases l with
  | nil => simp_all
  | cons a t => simp only [List.length_cons]; omega

/-- Embedding of the per-chunk buffer construction of `hash`
(hasher.rs lines 53-66): a non-final chunk (as decided by the predicate
`num_hashed + i < num_elements - 1`) is copied over the first 31 bytes of
the running buffer (the Rust `copy_from_slice` there requires the chunk to
hold exactly 31 bytes); for the final chunk the buffer is zeroed, the chunk
copied in, and a `1` marker byte appended when the chunk is shorter than
31 bytes. -/
def mkBuf (numElements numHashed i : Nat) (buf chunk : List Byte) : List Byte :=
  if numHashed + i < numElements - 1 then
    chunk ++ buf.drop 31
  else
    let b := chunk ++ (List.replicate 32 (0 : Byte)).drop chunk.length
    if chunk.length < 31 then b.set chunk.length 1 else b

/-- The absorption loop of `hash` (hasher.rs lines 52-78): build the 32-byte
buffer for each chunk, deserialize it, add it into `state[i]`, and permute
whenever the rate is full, tracking `num_hashed`. -/
def bytesAbsorb (P : State → State) (numElements : Nat) :
    State → Nat → Nat → List Byte → List (List Byte) → State × Nat × Nat × List Byte
  | state, i, numHashed, buf, [] => (state, i, numHashed, buf)
  | state, i, numHashed, buf, chunk :: rest =>
    let buf' := mkBuf numElements numHashed i buf chunk
    let state' := addAt state i ((feltRead buf').getD 0)
    if (i + 1) % RATE_WIDTH = 0 then
      bytesAbsorb P numElements (P state') 0 (numHashed + RATE_WIDTH) buf' rest
    else
      bytesAbsorb P numElements state' (i + 1) numHashed buf' rest

/-- Embedding of `AnemoiHash::hash` (hasher.rs lines 25-97), parameterized by
the permutation `P`.  The `unwrap` on `Felt::read` is embedded as `Option.getD`;
the deserialization is proved to always succeed on this path. -/
def hash (P : State → State) (bytes : List Byte) : List Fp :=
  let numElements := numElementsOf bytes
  let sigma : Fp := if numElements % RATE_WIDTH = 0 then 1 else 0
  let r := bytesAbsorb P numElements (List.replicate STATE_WIDTH 0) 0 0
      (List.replicate 32 0) (chunks31 bytes)
  let state := addAt r.1 (STATE_WIDTH - 1) sigma
  if sigma = 0 then (P (addAt state r.2.1 1)).take DIGEST_SIZE
  else state.take DIGEST_SIZE

/-- Modelled from the spec (4.6.2, ambiguity note and 9.2): the buffer
construction driven by the direct chunk-index comparison
`is_last = (chunk_index == num_elements - 1)` instead of the source's
`num_hashed + i < num_elements - 1` predicate. -/
def mkBufIdx (numElements j : Nat) (buf chunk : List Byte) : List Byte :=
  if j = numElements - 1 then
    let b := chunk ++ (List.replicate 32 (0 : Byte)).drop chunk.length
    if chunk.length < 31 then b.set chunk.length 1 else b
  else
    chunk ++ buf.drop 31

/-- Modelled from the spec: the absorption loop of `hash` with an explicit
chunk index `j`, the last chunk decided by `j = numElements - 1`. -/
def bytesAbsorbIdx (P : State → State) (numElements : Nat) :
    State → Nat → Nat → List Byte → List (List Byte) → State × Nat
  | state, i, _, _, [] => (state, i)
  | state, i, j, buf, chunk :: rest =>
    let buf' := mkBufIdx numElements j buf chunk
    let state' := addAt state i ((feltRead buf').getD 0)
    if (i + 1) % RATE_WIDTH = 0 then
      bytesAbsorbIdx P numElements (P state') 0 (j + 1) buf' rest
    else
      bytesAbsorbIdx P numElements state' (i + 1) (j + 1) buf' rest

/-- Modelled from the spec: the byte-mode hash with the last chunk decided by
the direct chunk-index comparison. -/
def hashChunkIdx (P : State → State) (bytes : List Byte) : List Fp :=
  let numElements := numElementsOf bytes
  let sigma : Fp := if numElements % RATE_WIDTH = 0 then 1 else 0
  let r := bytesAbsorbIdx P numElements (List.replicate STATE_WIDTH 0) 0 0
      (List.replicate 32 0) (chunks31 bytes)
  let state := addAt r.1 (STATE_WIDTH - 1) sigma
  if sigma = 0 then (P (addAt state r.2 1)).take DIGEST_SIZE
  else state.take DIGEST_SIZE

/-- A Boolean trace of the absorption loop of `hash` recording, for each
chunk, that the buffer handed to `Felt::read` has a zero high byte (index 31)
and that the deserialization succeeds.  It mirrors `bytesAbsorb` step by step
(same `mkBuf`, same index updates), dropping the state. -/
def readsOk (numElements : Nat) : Nat → Nat → List Byte → List (List Byte) → Bool
  | _, _, _, [] => true
  | i, numHashed, buf, chunk :: rest =>
    let buf' := mkBuf numElements numHashed i buf chunk
    (buf'.getD 31 0 == 0) && (feltRead buf').isSome &&
      (if (i + 1) % RATE_WIDTH = 0 then readsOk numElements 0 (numHashed + RATE_WIDTH) buf' rest
       else readsOk numElements (i + 1) numHashed buf' rest)

/-- Embedding of `AnemoiHash::merge` (hasher.rs lines 137-150): the state is
zeroed, `digests[0]` is copied into `state[0..DIGEST_SIZE]` and (as written
in the source) `digests[0]` again into `state[DIGEST_SIZE..2*DIGEST_SIZE]`;
with `DIGEST_SIZE = 1` a digest is a single field element. -/
def merge (P : State → State) (d1 d2 : Fp) : List Fp :=
  let state := ((List.replicate STATE_WIDTH (0 : Fp)).set 0 d1).set 1 d1
  (P state).take DIGEST_SIZE

/-- Embedding of `AnemoiHash::compress` (hasher.rs lines 154-166),
parameterized by the permutation `P`. -/
def compress (P : State → State) (elems : List Fp) : List Fp :=
  let state := P elems
  (List.range NUM_COLUMNS).map fun i =>
    elems.getD i 0 + elems.getD (i + NUM_COLUMNS) 0 +
      state.getD i 0 + state.getD (i + NUM_COLUMNS) 0

/-- Embedding of `AnemoiHash::compress_k` (hasher.rs lines 168-185),
parameterized by the permutation `P`. -/
def compress_k (P : State → State) (elems : List Fp) (k : Nat) : List Fp :=
  let state := P elems
  let c := STATE_WIDTH / k
  (List.range c).map fun i =>
    (List.range k).foldl
      (fun r j => r + (elems.getD (i + c * j) 0 + state.getD (i + c * j) 0)) 0

/-- Modelled from the spec: the little-endian byte digits of a natural
number, as produced by the external field library's serialization. -/
def leDigits (v : Nat) : Nat → List Byte
  | 0 => []
  | k + 1 => ⟨v % 256, by omega⟩ :: leDigits (v / 256) k

/-- Modelled from the spec: the first 31 bytes of the 32-byte little-endian
serialization of a field element, i.e. the 31 low little-endian byte digits
of its integer value. -/
def serialize31 (f : Fp) : List Byte := leDigits f.val 31

/-- The byte string formed by concatenating the first 31 serialized bytes of
each element, as in the field/byte equivalence property. -/
def bytesOfElems (elems : List Fp) : List Byte :=
  (elems.map serialize31).flatten

end Anemoi

namespace Bls377

/-- Modelled from the spec: the prime modulus of `Felt` of the `bls12_377`
module (the base field `Fq` of BLS12-377, provided by the external
`ark-bls12-377` library). -/
def pFq : Nat := 258664426012969094010652733694893533536393512754914660539884262666720468348340822774968888139573360124440321458177

/-- The field `Felt` of the `bls12_377` instances. -/
abbrev Fq : Type := ZMod pFq

/-- Modelled from the spec: the field's doubling primitive (`x.double()`),
which doubles an element. -/
def double (x : Fq) : Fq := x + x

/-- Embedding of `mul_by_generator` (bls12_377/mod.rs lines 41-49): four
doublings followed by one subtraction. -/
def mul_by_generator (x : Fq) : Fq :=
  let x2 := double x
  let x4 := double x2
  let x8 := double x4
  let x16 := double x8
  x16 - x

/-- Modelled from the spec: the concrete multiplicative generator `g` used by
the `bls12_377` instances, which the spec characterizes by the identity
`g * x = 16 * x - x`, i.e. `g = 15`. -/
def g : Fq := 15

end Bls377

namespace Anemoi

theorem chunks31_nil : chunks31 [] = [] := by
  rw [chunks31]; simp

theorem chunks31_of_ne_nil {l : List Byte} (h : l ≠ []) :
    chunks31 l = l.take 31 :: chunks31 (l.drop 31) := by
  rw [chunks31]; simp [h]

theorem chunks31_length_le {l : List Byte} : ∀ c ∈ chunks31 l, c.length ≤ 31 := by
  induction l using chunks31.induct with
  | case1 => intro c hc; rw [chunks31_nil] at hc; simp at hc
  | case2 l h ih =>
    intro c hc
    rw [chunks31_of_ne_nil h] at hc
    rcases List.mem_cons.mp hc with rfl | hc
    · simpa using List.length_take_le 31 l
    · exact ih c hc

theorem chunks31_count (l : List Byte) : (chunks31 l).length = numElementsOf l := by
  induction l using chunks31.induct with
  | case1 => simp [chunks31_nil, numElementsOf]
  | case2 l h ih =>
    rw [chunks31_of_ne_nil h]
    have hpos : 0 < l.length := List.length_pos.mpr h
    simp only [List.length_cons, ih, numElementsOf, List.length_drop]
    split_ifs <;> omega

theorem chunks31_append {a : List Byte} (r : List Byte) (ha : a.length = 31) :
    chunks31 (a ++ r) = a :: chunks31 r := by
  have hne : a ++ r ≠ [] := by
    intro hc
    rcases List.append_eq_nil.mp hc with ⟨rfl, -⟩
    simp at ha
  rw [chunks31_of_ne_nil hne, List.take_left' ha, List.drop_left' ha]

theorem leBytes_nil : leBytes [] = 0 := rfl

theorem leBytes_cons (b : Byte) (l : List Byte) :
    leBytes (b :: l) = b.val + 256 * leBytes l := rfl

theorem leBytes_append (a b : List Byte) :
    leBytes (a ++ b) = leBytes a + 256 ^ a.length * leBytes b := by
  induction a with
  | nil => simp [leBytes]
  | cons x a ih =>
    simp only [List.cons_append, leBytes_cons, ih, List.length_cons, pow_succ]
    ring

theorem leBytes_lt (l : List Byte) : leBytes l < 256 ^ l.length := by
  induction l with
  | nil => simp [leBytes]
  | cons b l ih =>
    have hb := b.isLt
    simp only [leBytes_cons, List.length_cons, pow_succ]
    omega

theorem leBytes_eq_zero {l : List Byte} (h : ∀ x ∈ l, x = 0) : leBytes l = 0 := by
  induction l with
  | nil => rfl
  | cons b l ih =>
    have hb : b = 0 := h b (List.mem_cons_self b l)
    have hl : leBytes l = 0 := ih fun x hx => h x (List.mem_cons_of_mem b hx)
    simp [leBytes_cons, hb, hl]

theorem leDigits_length (v k : Nat) : (leDigits v k).length = k := by
  induction k generalizing v with
  | zero => rfl
  | succ k ih => simp [leDigits, ih]

theorem leBytes_leDigits (v k : Nat) : leBytes (leDigits v k) = v % 256 ^ k := by
  induction k generalizing v with
  | zero => simp [leDigits, leBytes, Nat.mod_one]
  | succ k ih =>
    simp only [leDigits, leBytes_cons, ih]
    rw [pow_succ']
    exact Nat.mod_mul.symm

theorem serialize31_length (f : Fp) : (serialize31 f).length = 31 :=
  leDigits_length _ _

theorem leBytes_serialize31 {f : Fp} (h : f.val < 2 ^ 248) :
    leBytes (serialize31 f) = f.val := by
  rw [serialize31, leBytes_leDigits]
  exact Nat.mod_eq_of_lt (lt_of_lt_of_le h (by norm_num))

theorem feltRead_of_lt {l : List Byte} (h : leBytes l < pEd) :
    feltRead l = some ((leBytes l : Nat) : Fp) := by
  simp [feltRead, h]

theorem two_pow_248_lt_pEd : 2 ^ 248 < pEd := by
  rw [pEd]; norm_num

theorem feltRead_serialize31 {f : Fp} (h : f.val < 2 ^ 248) :
    feltRead (serialize31 f ++ [0]) = some f := by
  have hval : leBytes (serialize31 f ++ [0]) = f.val := by
    rw [leBytes_append, leBytes_serialize31 h]
    simp [leBytes]
  rw [feltRead, hval, if_pos (ZMod.val_lt f)]
  exact congrArg some (ZMod.natCast_rightInverse f)

theorem mkBuf_serialize31 (n nh i : Nat) {buf : List Byte} (f : Fp)
    (hbuf : buf.drop 31 = [0]) :
    mkBuf n nh i buf (serialize31 f) = serialize31 f ++ [0] := by
  unfold mkBuf
  split
  · rw [hbuf]
  · rw [serialize31_length, if_neg (lt_irrefl 31), List.drop_replicate]
    norm_num

end Anemoi

namespace Anemoi

theorem fieldAbsorb_snd (P : State → State) :
    ∀ (fs : List Fp) (s : State) (i : Nat), i < RATE_WIDTH →
      (fieldAbsorb P s i fs).2 = (i + fs.length) % RATE_WIDTH := by
  intro fs
  induction fs with
  | nil =>
    intro s i hi
    simp [fieldAbsorb, Nat.mod_eq_of_lt hi]
  | cons e rest ih =>
    intro s i hi
    simp only [fieldAbsorb, List.length_cons]
    by_cases h : (i + 1) % RATE_WIDTH = 0
    · rw [if_pos h, ih _ 0 (by simp [RATE_WIDTH])]
      simp only [RATE_WIDTH] at *
      omega
    · rw [if_neg h, ih _ (i + 1) (by simp only [RATE_WIDTH] at *; omega)]
      simp only [RATE_WIDTH] at *
      omega

theorem bytesAbsorb_ni (P : State → State) (n : Nat) :
    ∀ (cs : List (List Byte)) (s : State) (i nh : Nat) (buf : List Byte), i < RATE_WIDTH →
      (bytesAbsorb P n s i nh buf cs).2.2.1 + (bytesAbsorb P n s i nh buf cs).2.1
          = nh + i + cs.length ∧
      (bytesAbsorb P n s i nh buf cs).2.1 = (i + cs.length) % RATE_WIDTH := by
  intro cs
  induction cs with
  | nil =>
    intro s i nh buf hi
    simp [bytesAbsorb, Nat.mod_eq_of_lt hi]
  | cons c rest ih =>
    intro s i nh buf hi
    simp only [bytesAbsorb, List.length_cons]
    by_cases h : (i + 1) % RATE_WIDTH = 0
    · rw [if_pos h]
      obtain ⟨h1, h2⟩ := ih (P (addAt s i ((feltRead (mkBuf n nh i buf c)).getD 0))) 0
        (nh + RATE_WIDTH) (mkBuf n nh i buf c) (by simp [RATE_WIDTH])
      rw [h1, h2]
      simp only [RATE_WIDTH] at *
      omega
    · rw [if_neg h]
      obtain ⟨h1, h2⟩ := ih (addAt s i ((feltRead (mkBuf n nh i buf c)).getD 0)) (i + 1)
        nh (mkBuf n nh i buf c) (by simp only [RATE_WIDTH] at *; omega)
      rw [h1, h2]
      simp only [RATE_WIDTH] at *
      omega

theorem fieldAbsorb_eq_spec (P : State → State) :
    ∀ (fs : List Fp) (s : State) (i : Nat), i < RATE_WIDTH →
      fieldAbsorb P s i fs = fieldAbsorbSpec P s i fs := by
  intro fs
  induction fs with
  | nil => intro s i _; rfl
  | cons e rest ih =>
    intro s i hi
    simp only [fieldAbsorb, fieldAbsorbSpec]
    have hiff : ((i + 1) % RATE_WIDTH = 0) ↔ (i + 1 = RATE_WIDTH) := by
      simp only [RATE_WIDTH] at *
      omega
    by_cases h : (i + 1) % RATE_WIDTH = 0
    · rw [if_pos h, if_pos (hiff.mp h), ih _ 0 (by simp [RATE_WIDTH])]
    · rw [if_neg h, if_neg (fun hc => h (hiff.mpr hc)),
        ih _ (i + 1) (by simp only [RATE_WIDTH] at *; omega)]

theorem bytesAbsorb_eq_idx (P : State → State) (n : Nat) :
    ∀ (cs : List (List Byte)) (s : State) (i j nh : Nat) (buf : List Byte),
      i < RATE_WIDTH → nh + i = j → j + cs.length ≤ n →
      (bytesAbsorbIdx P n s i j buf cs).1 = (bytesAbsorb P n s i nh buf cs).1 ∧
      (bytesAbsorbIdx P n s i j buf cs).2 = (bytesAbsorb P n s i nh buf cs).2.1 := by
  intro cs
  induction cs with
  | nil => intro s i j nh buf _ _ _; exact ⟨rfl, rfl⟩
  | cons c rest ih =>
    intro s i j nh buf hi hj hn
    have hbuf : mkBufIdx n j buf c = mkBuf n nh i buf c := by
      have hiff : (j = n - 1) ↔ ¬(nh + i < n - 1) := by
        simp only [List.length_cons] at hn
        omega
      unfold mkBuf mkBufIdx
      by_cases h : j = n - 1
      · rw [if_pos h, if_neg (fun hc => (hiff.mp h) hc)]
      · rw [if_neg h, if_pos (by by_contra hc; exact h (hiff.mpr hc))]
    simp only [bytesAbsorbIdx, bytesAbsorb, hbuf]
    have hlen : j + 1 + rest.length ≤ n := by
      simp only [List.length_cons] at hn
      omega
    by_cases h : (i + 1) % RATE_WIDTH = 0
    · simp only [if_pos h]
      have hi10 : i + 1 = RATE_WIDTH := by
        simp only [RATE_WIDTH] at *
        omega
      exact ih _ 0 (j + 1) (nh + RATE_WIDTH) _ (by simp [RATE_WIDTH]) (by omega) hlen
    · simp only [if_neg h]
      exact ih _ (i + 1) (j + 1) nh _
        (by simp only [RATE_WIDTH] at *; omega) (by omega) hlen

theorem bytesAbsorb_map_serialize (P : State → State) (n : Nat) :
    ∀ (fs : List Fp) (s : State) (i nh : Nat) (buf : List Byte),
      buf.drop 31 = [0] →
      (∀ f ∈ fs, f.val < 2 ^ 248) →
      (bytesAbsorb P n s i nh buf (fs.map serialize31)).1 = (fieldAbsorb P s i fs).1 ∧
      (bytesAbsorb P n s i nh buf (fs.map serialize31)).2.1 = (fieldAbsorb P s i fs).2 := by
  intro fs
  induction fs with
  | nil => intro s i nh buf _ _; exact ⟨rfl, rfl⟩
  | cons f rest ih =>
    intro s i nh buf hbuf hval
    have hf : f.val < 2 ^ 248 := hval f (List.mem_cons_self f rest)
    have hrest : ∀ x ∈ rest, x.val < 2 ^ 248 :=
      fun x hx => hval x (List.mem_cons_of_mem f hx)
    have hbuf' : (serialize31 f ++ [0]).drop 31 = [(0 : Byte)] :=
      List.drop_left' (serialize31_length f)
    simp only [List.map_cons, bytesAbsorb, fieldAbsorb,
      mkBuf_serialize31 n nh i f hbuf, feltRead_serialize31 hf, Option.getD_some]
    by_cases h : (i + 1) % RATE_WIDTH = 0
    · rw [if_pos h, if_pos h]
      exact ih _ 0 (nh + RATE_WIDTH) _ hbuf' hrest
    · rw [if_neg h, if_neg h]
      exact ih _ (i + 1) nh _ hbuf' hrest

theorem bytesOfElems_nil : bytesOfElems [] = [] := rfl

theorem bytesOfElems_cons (f : Fp) (rest : List Fp) :
    bytesOfElems (f :: rest) = serialize31 f ++ bytesOfElems rest := by
  simp [bytesOfElems]

theorem bytesOfElems_length (elems : List Fp) :
    (bytesOfElems elems).length = 31 * elems.length := by
  induction elems with
  | nil => rfl
  | cons f rest ih =>
    rw [bytesOfElems_cons]
    simp [ih, serialize31_length]
    ring

theorem numElementsOf_bytesOfElems (elems : List Fp) :
    numElementsOf (bytesOfElems elems) = elems.length := by
  rw [numElementsOf, bytesOfElems_length, if_pos (by omega)]
  omega

theorem chunks31_bytesOfElems (elems : List Fp) :
    chunks31 (bytesOfElems elems) = elems.map serialize31 := by
  induction elems with
  | nil => exact chunks31_nil
  | cons f rest ih =>
    rw [bytesOfElems_cons, chunks31_append _ (serialize31_length f), ih, List.map_cons]

end Anemoi

namespace Anemoi

theorem mkBuf_inv (n nh i : Nat) {buf chunk : List Byte}
    (hlen : buf.length ≤ 32) (hz : ∀ x ∈ buf.drop 31, x = 0) (hc : chunk.length ≤ 31) :
    (mkBuf n nh i buf chunk).length ≤ 32 ∧
      ∀ x ∈ (mkBuf n nh i buf chunk).drop 31, x = 0 := by
  have hcnil : chunk.drop 31 = [] := List.drop_eq_nil_of_le hc
  unfold mkBuf
  split
  · refine ⟨?_, ?_⟩
    · simp only [List.length_append, List.length_drop]
      omega
    · intro x hx
      rw [List.drop_append_eq_append_drop, hcnil, List.nil_append] at hx
      exact hz x (List.mem_of_mem_drop hx)
  · have hrep : ∀ x ∈ ((chunk ++ (List.replicate 32 (0 : Byte)).drop chunk.length).drop 31),
        x = (0 : Byte) := by
      intro x hx
      rw [List.drop_append_eq_append_drop, hcnil, List.nil_append] at hx
      have := List.mem_of_mem_drop hx
      have := List.mem_of_mem_drop this
      exact List.eq_of_mem_replicate this
    have hreplen : (chunk ++ (List.replicate 32 (0 : Byte)).drop chunk.length).length = 32 := by
      simp only [List.length_append, List.length_drop, List.length_replicate]
      omega
    by_cases hlt : chunk.length < 31
    · rw [if_pos hlt]
      refine ⟨?_, ?_⟩
      · simp only [List.length_set, hreplen]
        omega
      · rw [List.drop_set_of_lt _ _ hlt]
        exact hrep
    · rw [if_neg hlt]
      exact ⟨by simp only [hreplen]; omega, hrep⟩

theorem getD31_eq_zero {l : List Byte} (hz : ∀ x ∈ l.drop 31, x = 0) :
    l.getD 31 0 = 0 := by
  rw [List.getD_eq_getElem?_getD]
  cases hcase : l[31]? with
  | none => rfl
  | some a =>
    have h0 : (l.drop 31)[0]? = some a := by
      rw [List.getElem?_drop]
      simpa using hcase
    rw [Option.getD_some]
    exact hz a (List.getElem?_mem h0)

theorem leBytes_lt_of_inv {l : List Byte} (hlen : l.length ≤ 32)
    (hz : ∀ x ∈ l.drop 31, x = 0) : leBytes l < 2 ^ 248 := by
  have hsplit : l = l.take 31 ++ l.drop 31 := (List.take_append_drop 31 l).symm
  have hz' : leBytes (l.drop 31) = 0 := leBytes_eq_zero hz
  calc leBytes l = leBytes (l.take 31 ++ l.drop 31) := by rw [← hsplit]
    _ = leBytes (l.take 31) + 256 ^ (l.take 31).length * leBytes (l.drop 31) :=
        leBytes_append _ _
    _ = leBytes (l.take 31) := by rw [hz']; ring
    _ < 256 ^ (l.take 31).length := leBytes_lt _
    _ ≤ 256 ^ 31 := Nat.pow_le_pow_right (by norm_num) (List.length_take_le 31 l)
    _ = 2 ^ 248 := by norm_num

theorem feltRead_isSome_of_inv {l : List Byte} (hlen : l.length ≤ 32)
    (hz : ∀ x ∈ l.drop 31, x = 0) : (feltRead l).isSome = true := by
  rw [feltRead, if_pos (lt_trans (leBytes_lt_of_inv hlen hz) two_pow_248_lt_pEd)]
  rfl

theorem readsOk_of_inv (n : Nat) :
    ∀ (cs : List (List Byte)) (i nh : Nat) (buf : List Byte),
      buf.length ≤ 32 → (∀ x ∈ buf.drop 31, x = 0) → (∀ c ∈ cs, c.length ≤ 31) →
      readsOk n i nh buf cs = true := by
  intro cs
  induction cs with
  | nil => intro i nh buf _ _ _; rfl
  | cons c rest ih =>
    intro i nh buf hlen hz hc
    have hchead : c.length ≤ 31 := hc c (List.mem_cons_self c rest)
    have hcrest : ∀ x ∈ rest, x.length ≤ 31 :=
      fun x hx => hc x (List.mem_cons_of_mem c hx)
    obtain ⟨hlen', hz'⟩ := mkBuf_inv n nh i hlen hz hchead
    simp only [readsOk, Bool.and_eq_true, beq_iff_eq]
    refine ⟨⟨getD31_eq_zero hz', feltRead_isSome_of_inv hlen' hz'⟩, ?_⟩
    by_cases h : (i + 1) % RATE_WIDTH = 0
    · simp only [if_pos h]
      exact ih 0 (nh + RATE_WIDTH) _ hlen' hz' hcrest
    · simp only [if_neg h]
      exact ih (i + 1) nh _ hlen' hz' hcrest

end Anemoi

namespace Anemoi

/-- C1: `merge` copies the first digest into both rate slots: for all digests
`d1, d2`, `merge [d1, d2]` equals the rate prefix of the permuted state that
holds `d1` in slot 0 and `d1` again in slot 1 over an otherwise-zero state;
consequently the result is independent of the second digest. -/
theorem claim_C1 (P : State → State) (d1 d2 d2' : Fp) :
    merge P d1 d2 =
      (P (((List.replicate STATE_WIDTH (0 : Fp)).set 0 d1).set 1 d1)).take DIGEST_SIZE ∧
    merge P d1 d2 = merge P d1 d2' :=
  ⟨rfl, rfl⟩

/-- C2: `hash_field` implements exactly the algorithm stated in the spec
(section 4.6.1): zero state, `sigma` from the length's divisibility by the
rate, additive absorption with a permutation each time the insertion index
reaches the rate, `sigma` into the last capacity slot, pad-one plus a final
permutation when `sigma = 0`, digest = first `DIGEST_SIZE` state elements. -/
theorem claim_C2 (P : State → State) (elems : List Fp) :
    hash_field P elems = hash_field_spec P elems := by
  simp only [hash_field, hash_field_spec]
  rw [fieldAbsorb_eq_spec P elems (List.replicate STATE_WIDTH 0) 0 (by simp [RATE_WIDTH])]

/-- C6: on the byte-hashing path of `hash`, every 32-byte buffer handed to
the field deserialization has a zero byte at index 31 and the
deserialization succeeds (the `unwrap` never panics). -/
theorem claim_C6 (bytes : List Byte) :
    readsOk (numElementsOf bytes) 0 0 (List.replicate 32 0) (chunks31 bytes) = true :=
  readsOk_of_inv (numElementsOf bytes) (chunks31 bytes) 0 0 (List.replicate 32 0)
    (by simp)
    (by intro x hx; rw [List.drop_replicate] at hx; exact List.eq_of_mem_replicate hx)
    chunks31_length_le

/-- C7: in both `hash_field` and `hash`, when `sigma = 0` (input length not a
multiple of the rate) the insertion index at the padding step satisfies
`1 ≤ i < RATE_WIDTH`, so the pad-one constant lands inside a rate register. -/
theorem claim_C7 (P : State → State) (elems : List Fp) (bytes : List Byte) :
    (elems.length % RATE_WIDTH ≠ 0 →
      1 ≤ (fieldAbsorb P (List.replicate STATE_WIDTH 0) 0 elems).2 ∧
      (fieldAbsorb P (List.replicate STATE_WIDTH 0) 0 elems).2 < RATE_WIDTH) ∧
    (numElementsOf bytes % RATE_WIDTH ≠ 0 →
      1 ≤ (bytesAbsorb P (numElementsOf bytes) (List.replicate STATE_WIDTH 0) 0 0
            (List.replicate 32 0) (chunks31 bytes)).2.1 ∧
      (bytesAbsorb P (numElementsOf bytes) (List.replicate STATE_WIDTH 0) 0 0
            (List.replicate 32 0) (chunks31 bytes)).2.1 < RATE_WIDTH) := by
  constructor
  · intro h
    rw [fieldAbsorb_snd P elems (List.replicate STATE_WIDTH 0) 0 (by simp [RATE_WIDTH])]
    simp only [RATE_WIDTH] at *
    omega
  · intro h
    rw [(bytesAbsorb_ni P (numElementsOf bytes) (chunks31 bytes)
        (List.replicate STATE_WIDTH 0) 0 0 (List.replicate 32 0) (by simp [RATE_WIDTH])).2,
      chunks31_count]
    simp only [RATE_WIDTH] at *
    omega

theorem claim_C7_witness :
    (1 ≤ (fieldAbsorb id (List.replicate STATE_WIDTH 0) 0 [(0 : Fp)]).2 ∧
      (fieldAbsorb id (List.replicate STATE_WIDTH 0) 0 [(0 : Fp)]).2 < RATE_WIDTH) ∧
    (1 ≤ (bytesAbsorb id (numElementsOf [(0 : Byte)]) (List.replicate STATE_WIDTH 0) 0 0
          (List.replicate 32 0) (chunks31 [(0 : Byte)])).2.1 ∧
      (bytesAbsorb id (numElementsOf [(0 : Byte)]) (List.replicate STATE_WIDTH 0) 0 0
          (List.replicate 32 0) (chunks31 [(0 : Byte)])).2.1 < RATE_WIDTH) := by
  have h := claim_C7 id [(0 : Fp)] [(0 : Byte)]
  exact ⟨h.1 (by decide), h.2 (by decide)⟩

/-- C10: when the absorbed length is a multiple of the rate (`sigma = 1`),
the sigma injection into the last capacity slot does not affect the digest
and no permutation follows it: the result is exactly the rate prefix of the
state left by the absorption loop, for `hash_field` and for `hash` alike. -/
theorem claim_C10 (P : State → State) (elems : List Fp) (bytes : List Byte) :
    (elems.length % RATE_WIDTH = 0 →
      hash_field P elems =
        ((fieldAbsorb P (List.replicate STATE_WIDTH 0) 0 elems).1).take DIGEST_SIZE) ∧
    (numElementsOf bytes % RATE_WIDTH = 0 →
      hash P bytes =
        ((bytesAbsorb P (numElementsOf bytes) (List.replicate STATE_WIDTH 0) 0 0
            (List.replicate 32 0) (chunks31 bytes)).1).take DIGEST_SIZE) := by
  constructor
  · intro h
    simp only [hash_field, if_pos h]
    rw [if_neg (by decide : ¬((1 : Fp) = 0))]
    unfold addAt
    exact List.take_set_of_lt _ _ (by simp [STATE_WIDTH, DIGEST_SIZE])
  · intro h
    simp only [hash, if_pos h]
    rw [if_neg (by decide : ¬((1 : Fp) = 0))]
    unfold addAt
    exact List.take_set_of_lt _ _ (by simp [STATE_WIDTH, DIGEST_SIZE])

theorem claim_C10_witness :
    (hash_field id ([] : List Fp) =
      ((fieldAbsorb id (List.replicate STATE_WIDTH 0) 0 ([] : List Fp)).1).take DIGEST_SIZE) ∧
    (hash id ([] : List Byte) =
      ((bytesAbsorb id (numElementsOf ([] : List Byte)) (List.replicate STATE_WIDTH 0) 0 0
          (List.replicate 32 0) (chunks31 ([] : List Byte))).1).take DIGEST_SIZE) := by
  have h := claim_C10 id ([] : List Fp) ([] : List Byte)
  exact ⟨h.1 (by decide), h.2 (by decide)⟩

end Anemoi

namespace Anemoi

/-- C3: field/byte equivalence: when every input field element's value fits
in 248 bits, hashing the concatenation of the first 31 little-endian bytes of
each element's serialization gives the same digest as hashing the field
elements directly. -/
theorem claim_C3 (P : State → State) (elems : List Fp)
    (h : ∀ f ∈ elems, f.val < 2 ^ 248) :
    hash P (bytesOfElems elems) = hash_field P elems := by
  obtain ⟨hs, hi⟩ := bytesAbsorb_map_serialize P elems.length elems
    (List.replicate STATE_WIDTH 0) 0 0 (List.replicate 32 0) (by simp) h
  simp only [hash, hash_field, numElementsOf_bytesOfElems, chunks31_bytesOfElems, hs, hi]

theorem claim_C3_witness :
    (∀ f ∈ [(0 : Fp)], f.val < 2 ^ 248) ∧
    hash id (bytesOfElems [(0 : Fp)]) = hash_field id [(0 : Fp)] := by
  have hval : ∀ f ∈ [(0 : Fp)], f.val < 2 ^ 248 := by
    intro f hf
    rw [List.mem_singleton] at hf
    subst hf
    rw [ZMod.val_zero]
    exact pow_pos (by norm_num) 248
  exact ⟨hval, claim_C3 id [(0 : Fp)] hval⟩

/-- C4: the not-last-chunk predicate `num_hashed + i < num_elements - 1` of
`hash` is equivalent to the direct chunk-index comparison: at the start of
the iteration processing chunk `j` the loop state satisfies
`num_hashed + i = j`, and `hash` coincides with the variant that detects the
final chunk by `j = num_elements - 1`, so the special last-chunk handling is
applied to exactly the final chunk and to no other. -/
theorem claim_C4 (P : State → State) (bytes : List Byte) (done : List (List Byte)) :
    (bytesAbsorb P (numElementsOf bytes) (List.replicate STATE_WIDTH 0) 0 0
        (List.replicate 32 0) done).2.2.1 +
      (bytesAbsorb P (numElementsOf bytes) (List.replicate STATE_WIDTH 0) 0 0
        (List.replicate 32 0) done).2.1 = done.length ∧
    hash P bytes = hashChunkIdx P bytes := by
  constructor
  · have h := (bytesAbsorb_ni P (numElementsOf bytes) done (List.replicate STATE_WIDTH 0)
      0 0 (List.replicate 32 0) (by simp [RATE_WIDTH])).1
    simpa using h
  · obtain ⟨h1, h2⟩ := bytesAbsorb_eq_idx P (numElementsOf bytes) (chunks31 bytes)
      (List.replicate STATE_WIDTH 0) 0 0 0 (List.replicate 32 0)
      (by simp [RATE_WIDTH]) rfl (by rw [chunks31_count]; omega)
    simp only [hash, hashChunkIdx, h1, h2]

/-- C5: for an input slice of exactly `STATE_WIDTH` field elements,
`compress_k` with `k = 2` returns the same vector as `compress`. -/
theorem claim_C5 (P : State → State) (elems : List Fp)
    (h : elems.length = STATE_WIDTH) :
    compress_k P elems 2 = compress P elems := by
  simp only [compress, compress_k, STATE_WIDTH, NUM_COLUMNS]
  norm_num
  intro i _
  simp only [List.range_succ, List.range_zero, List.nil_append, List.cons_append,
    List.foldl_cons, List.foldl_nil, Nat.mul_zero, Nat.mul_one, Nat.add_zero]
  ring

theorem claim_C5_witness :
    (List.replicate 12 (0 : Fp)).length = STATE_WIDTH ∧
    compress_k id (List.replicate 12 (0 : Fp)) 2 = compress id (List.replicate 12 (0 : Fp)) :=
  ⟨by decide, claim_C5 id (List.replicate 12 (0 : Fp)) (by decide)⟩

/-- C9: both `hash` and `hash_field` on the empty input return the digest of
`DIGEST_SIZE` zero field elements, independently of the permutation (the
absorb loop never runs, `sigma = 1` skips the final-permutation branch, and
the sigma injection only touches the last capacity slot). -/
theorem claim_C9 (P : State → State) :
    hash_field P [] = List.replicate DIGEST_SIZE 0 ∧
    hash P [] = List.replicate DIGEST_SIZE 0 := by
  constructor
  · simp only [hash_field, fieldAbsorb, List.length_nil]
    rw [if_pos (by simp : (0 : Nat) % RATE_WIDTH = 0), if_neg (by decide : ¬((1 : Fp) = 0))]
    decide
  · simp only [hash, chunks31_nil, bytesAbsorb]
    rw [if_pos (by simp [numElementsOf] : numElementsOf ([] : List Byte) % RATE_WIDTH = 0),
      if_neg (by decide : ¬((1 : Fp) = 0))]
    decide

end Anemoi

namespace Bls377

/-- C8: `mul_by_generator`, computed by four doublings and one subtraction,
equals `16 * x - x = 15 * x`, which is `g * x` for the concrete generator `g`
of these instances. -/
theorem claim_C8 (x : Fq) :
    mul_by_generator x = 15 * x ∧ mul_by_generator x = g * x := by
  constructor
  · simp only [mul_by_generator, double]
    ring
  · simp only [mul_by_generator, double, g]
    ring

end Bls377
